import Mathlib

/-!
Verification of the circuit-optimization repository (src/circuit_optimization.py).

The file shallowly embeds the two functions of the source, make_circuit_lp and
solve_circuit_lp, as executable Lean definitions and proves the frozen claims
about them.  A model is a list of linear constraints over named binary decision
variables; every constraint is recorded exactly in the shape the source writes
it (left-hand terms, comparison sense, right-hand terms, right-hand constant).
-/

namespace CircuitOpt

/-- Decision-variable names of the model, mirroring the names u.e.k, v.i.k,
p.k.j and r.i.k.j allocated by make_circuit_lp (all indices 1-based as in the
source). -/
inductive Var : Type where
  | u (e k : Nat)
  | v (i k : Nat)
  | p (k j : Nat)
  | r (i k j : Nat)
deriving DecidableEq

/-- Comparison sense of an emitted constraint. -/
inductive Sense : Type where
  | ge
  | le
deriving DecidableEq

/-- One linear constraint as emitted by the source: the terms written on the
left of the comparison, the sense, and the terms and constant written on the
right.  Each term is a coefficient paired with a variable, kept in the order
the source's xsum expressions produce them. -/
structure Constr : Type where
  lhs : List (Int × Var)
  sense : Sense
  rhsTerms : List (Int × Var)
  rhsConst : Int
deriving DecidableEq

/-! ### TruthTableExpander: lines 63-64 of the source -/

/-- Cartesian product of 0 and 1 repeated n times, in the lexicographic order
produced by itertools.product with the first coordinate varying slowest.
Models list(product(range of 0 and 1, repeat n)). -/
def pyProduct01 : Nat → List (List Nat)
  | 0 => [[]]
  | n + 1 => ([0, 1] : List Nat).flatMap (fun b => (pyProduct01 n).map (fun t => b :: t))

/-- Assignment matrix of make_circuit_lp: the lexicographic product with every
row reversed.  Models np.fliplr applied to the product matrix (line 64). -/
def circuitTable (n : Nat) : List (List Nat) :=
  (pyProduct01 n).map List.reverse

/-- Entry of the assignment matrix at 0-based row j and 0-based column c
(out-of-range indices give the junk value 0; makeCircuitConstrs separately
models the bounds check numpy performs on the row index). -/
def tableEntry (n j c : Nat) : Nat :=
  ((circuitTable n).getD j []).getD c 0

/-! ### Scalar setup of make_circuit_lp: lines 56-61 of the source -/

/-- Fuel-driven floor of the base-2 logarithm; with fuel at least n this is the
exact floor of log2 n. -/
def log2Fuel : Nat → Nat → Nat
  | 0, _ => 0
  | fuel + 1, n => if 2 ≤ n then log2Fuel fuel (n / 2) + 1 else 0

/-- Number of circuit inputs, n, computed from the truth list exactly as the
source does at line 56: int(np.log2(len(truth))), i.e. the floor of the
base-2 logarithm of the length (for an empty truth string the source raises
OverflowError; that case is modelled in make_circuit_lp). -/
def numInputs (truth : List Nat) : Nat :=
  log2Fuel truth.length truth.length

/-- Integer marker of a gate tag, line 59 of the source: 0 if the tag is the
string NOT, and -1 for every other tag (NAND or anything else), with no
validation. -/
def tagMark (tag : String) : Int :=
  if tag == "NOT" then 0 else -1

/-- Splitting a character list at every occurrence of the separator, keeping
empty pieces: the semantics of the Python str.split method with an explicit
single-character separator. -/
def pySplitAux (sep : Char) : List Char → List Char → List String
  | [], acc => [String.mk acc.reverse]
  | c :: cs, acc =>
    if c = sep then String.mk acc.reverse :: pySplitAux sep cs []
    else pySplitAux sep cs (c :: acc)

/-- Python str.split with a single-character separator. -/
def pySplit (s : String) (sep : Char) : List String :=
  pySplitAux sep s.toList []

/-- Gate markers of make_circuit_lp, lines 58-59: the gates string is split on
single spaces and every tag is mapped to its integer marker. -/
def parseGates (gates : String) : List Int :=
  (pySplit gates ' ').map tagMark

/-- Truth bits of make_circuit_lp, line 57: each character of the truth string
converted by int(.) (make_circuit_lp checks the digit precondition and raises
ValueError otherwise; the wrapper below models that check). -/
def truthBits (truth : String) : List Nat :=
  truth.toList.map (fun c => c.toNat - 48)

/-- Big-M constant A of line 61: n + R. -/
def bigA (truth : List Nat) (marks : List Int) : Int :=
  (numInputs truth : Int) + (marks.length : Int)

/-- Value held by the Python loop variable k when control reaches the
final-gate loop at line 107.  The preceding loop at line 97 runs k over
range(1, R) and leaves k = R - 1 when R is at least 2; when R = 1 that product
is empty and k retains the value R = 1 left by the allocation loop of line 83.
The source then reads gates[k-1] at lines 112 and 116 with this leaked k. -/
def staleK (R : Nat) : Nat :=
  if 2 ≤ R then R - 1 else R

/-! ### VariableSpace: lines 67-89 of the source -/

/-- Every decision variable allocated by make_circuit_lp, in allocation order:
u.el.k for el in 1..n and k in 1..R, then v.i.k for k in 1..R and i in 1..k-1,
then p.k.j for k in 1..R-1 and j in 1..2^n, then r.i.k.j for k in 1..R,
i in 1..k-1 and j in 1..2^n. -/
def allocVars (truth : List Nat) (marks : List Int) : List Var :=
  let n := numInputs truth
  let R := marks.length
  (List.range' 1 n).flatMap (fun el => (List.range' 1 R).map (fun k => Var.u el k))
  ++ (List.range' 1 R).flatMap (fun k => (List.range' 1 (k - 1)).map (fun i => Var.v i k))
  ++ (List.range' 1 (R - 1)).flatMap (fun k => (List.range' 1 (2 ^ n)).map (fun j => Var.p k j))
  ++ (List.range' 1 R).flatMap (fun k =>
       (List.range' 1 (k - 1)).flatMap (fun i =>
         (List.range' 1 (2 ^ n)).map (fun j => Var.r i k j)))

/-- Objective terms of lines 92-94: every u variable and every v variable with
coefficient 1 (minimize the total connection count). -/
def objectiveTerms (truth : List Nat) (marks : List Int) : List (Int × Var) :=
  let n := numInputs truth
  let R := marks.length
  (List.range' 1 n).flatMap (fun el => (List.range' 1 R).map (fun k => ((1 : Int), Var.u el k)))
  ++ (List.range' 1 R).flatMap (fun k =>
       (List.range' 1 (k - 1)).map (fun i => ((1 : Int), Var.v i k)))

/-! ### ConstraintBuilder: lines 97-128 of the source -/

/-- First big-M inequality of a non-final gate k at row j (lines 98-101):
minus the external weighted sum minus the internal r-sum, at least
gates[k-1] - A*(1 - p.k.j).  The right-hand side is recorded as the constant
gates[k-1] - A plus the term A * p.k.j. -/
def nfConstr1 (truth : List Nat) (marks : List Int) (k j : Nat) : Constr :=
  let n := numInputs truth
  let A := bigA truth marks
  { lhs := (List.range' 1 n).map
        (fun el => (-(tableEntry n (j - 1) (el - 1) : Int), Var.u el k))
      ++ (List.range' 1 (k - 1)).map (fun i => ((-1 : Int), Var.r i k j))
    sense := Sense.ge
    rhsTerms := [(A, Var.p k j)]
    rhsConst := marks.getD (k - 1) 0 - A }

/-- Second big-M inequality of a non-final gate k at row j (lines 102-105):
the external weighted sum plus the internal r-sum, at least
1 - gates[k-1] - A*p.k.j. -/
def nfConstr2 (truth : List Nat) (marks : List Int) (k j : Nat) : Constr :=
  let n := numInputs truth
  let A := bigA truth marks
  { lhs := (List.range' 1 n).map
        (fun el => ((tableEntry n (j - 1) (el - 1) : Int), Var.u el k))
      ++ (List.range' 1 (k - 1)).map (fun i => ((1 : Int), Var.r i k j))
    sense := Sense.ge
    rhsTerms := [(-A, Var.p k j)]
    rhsConst := 1 - marks.getD (k - 1) 0 }

/-- Non-final gate constraints, lines 97-105: for k over range(1, R) and j over
range(1, 2^n + 1), the pair of big-M inequalities. -/
def nonFinalConstrs (truth : List Nat) (marks : List Int) : List Constr :=
  (List.range' 1 (marks.length - 1)).flatMap (fun k =>
    (List.range' 1 (2 ^ numInputs truth)).flatMap (fun j =>
      [nfConstr1 truth marks k j, nfConstr2 truth marks k j]))

/-- Final-gate constraint for the 0-based row j with target bit val, lines
107-116.  When val = 1 the negated sums must be at least gates[k-1]; otherwise
the plain sums must be at least 1 - gates[k-1].  Crucially the source reads
gates[k-1] with the stale loop variable k (see staleK), not gates[R-1]. -/
def finalRowConstr (truth : List Nat) (marks : List Int) (j val : Nat) : Constr :=
  let n := numInputs truth
  let R := marks.length
  let g := marks.getD (staleK R - 1) 0
  if val = 1 then
    { lhs := (List.range' 1 n).map
          (fun el => (-(tableEntry n j (el - 1) : Int), Var.u el R))
        ++ (List.range' 1 (R - 1)).map (fun i => ((-1 : Int), Var.r i R (j + 1)))
      sense := Sense.ge
      rhsTerms := []
      rhsConst := g }
  else
    { lhs := (List.range' 1 n).map
          (fun el => ((tableEntry n j (el - 1) : Int), Var.u el R))
        ++ (List.range' 1 (R - 1)).map (fun i => ((1 : Int), Var.r i R (j + 1)))
      sense := Sense.ge
      rhsTerms := []
      rhsConst := 1 - g }

/-- Final-gate constraints: one constraint per entry of the truth list, in
enumeration order (line 107: for j, val in enumerate(truth)). -/
def finalConstrs (truth : List Nat) (marks : List Int) : List Constr :=
  truth.enum.map (fun e => finalRowConstr truth marks e.1 e.2)

/-- First AND-linearization inequality (line 121):
p.i.j + v.i.k - r.i.k.j at most 1. -/
def andConstr1 (i k j : Nat) : Constr :=
  { lhs := [((1 : Int), Var.p i j), ((1 : Int), Var.v i k), ((-1 : Int), Var.r i k j)]
    sense := Sense.le
    rhsTerms := []
    rhsConst := 1 }

/-- Second AND-linearization inequality (line 122):
p.i.j + v.i.k - 2*r.i.k.j at least 0. -/
def andConstr2 (i k j : Nat) : Constr :=
  { lhs := [((1 : Int), Var.p i j), ((1 : Int), Var.v i k), ((-2 : Int), Var.r i k j)]
    sense := Sense.ge
    rhsTerms := []
    rhsConst := 0 }

/-- AND-linearization constraints, lines 119-122: for k over range(2, R + 1),
j over range(1, 2^n + 1) and i over range(1, k), the two inequalities. -/
def andLinConstrs (truth : List Nat) (marks : List Int) : List Constr :=
  (List.range' 2 (marks.length - 1)).flatMap (fun k =>
    (List.range' 1 (2 ^ numInputs truth)).flatMap (fun j =>
      (List.range' 1 (k - 1)).flatMap (fun i =>
        [andConstr1 i k j, andConstr2 i k j])))

/-- Fan-in constraint of gate k, lines 124-128: the sum of all incoming u and
v indicators of gate k at most 1 - gates[k-1]. -/
def fanInConstr (truth : List Nat) (marks : List Int) (k : Nat) : Constr :=
  let n := numInputs truth
  { lhs := (List.range' 1 n).map (fun el => ((1 : Int), Var.u el k))
      ++ (List.range' 1 (k - 1)).map (fun i => ((1 : Int), Var.v i k))
    sense := Sense.le
    rhsTerms := []
    rhsConst := 1 - marks.getD (k - 1) 0 }

/-- Fan-in constraints for every gate k in 1..R. -/
def fanInConstrs (truth : List Nat) (marks : List Int) : List Constr :=
  (List.range' 1 marks.length).map (fun k => fanInConstr truth marks k)

/-- All constraints of the model, in the order the source adds them. -/
def modelConstrs (truth : List Nat) (marks : List Int) : List Constr :=
  nonFinalConstrs truth marks ++ finalConstrs truth marks
    ++ andLinConstrs truth marks ++ fanInConstrs truth marks

/-- Constraint system produced by make_circuit_lp from the parsed truth bits
and gate markers.  When the truth length exceeds 2^n (n the floor of its
base-2 logarithm, line 56) the final-gate loop reads assignment-matrix row
2^n, which numpy rejects: the call dies with an uncaught IndexError and no
model is produced.  That abort is modelled by the error branch. -/
def makeCircuitConstrs (truth : List Nat) (marks : List Int) : Except String (List Constr) :=
  if 2 ^ numInputs truth < truth.length then Except.error "IndexError"
  else Except.ok (modelConstrs truth marks)

/-- Model construction of make_circuit_lp from the raw string arguments.
Line 56 raises OverflowError on an empty truth string (int of negative
infinity); line 57 raises ValueError when a character of the truth string is
not a digit; afterwards the constraint system is built. -/
def make_circuit_lp (truth gates : String) : Except String (List Constr) :=
  if truth.length = 0 then Except.error "OverflowError"
  else if truth.toList.all Char.isDigit then
    makeCircuitConstrs (truthBits truth) (parseGates gates)
  else Except.error "ValueError"

/-! ### SolutionDecoder: lines 215-221 of the source -/

/-- Literal annotation the decoder looks for in a split solution-log line
(line 220 of the source). -/
def objTag : String := "\t(obj:1)\n"

/-- Leading and trailing whitespace removal, the first step of the Python int
conversion of a string. -/
def pyStripWS (s : List Char) : List Char :=
  ((s.dropWhile Char.isWhitespace).reverse.dropWhile Char.isWhitespace).reverse

/-- Decimal value of a digit list. -/
def digitsToNat (ds : List Char) : Nat :=
  ds.foldl (fun a c => 10 * a + (c.toNat - 48)) 0

/-- Python int(.) applied to a string: optional surrounding whitespace, an
optional single sign, then a non-empty run of digits; anything else raises
ValueError, modelled by none. -/
def pyInt (s : String) : Option Int :=
  match pyStripWS s.toList with
  | '-' :: ds => if ds ≠ [] ∧ ds.all Char.isDigit then some (-(digitsToNat ds : Int)) else none
  | '+' :: ds => if ds ≠ [] ∧ ds.all Char.isDigit then some ((digitsToNat ds : Int)) else none
  | ds => if ds ≠ [] ∧ ds.all Char.isDigit then some ((digitsToNat ds : Int)) else none

/-- Entry the decoder builds from one annotated line (line 221): the first
token of the split line paired with the integer value of its second-to-last
token. -/
def lineEntry (line : String) : String × Int :=
  let toks := pySplit line ' '
  (toks.headD "", (pyInt (toks.getD (toks.length - 2) "")).getD 0)

/-- Decoding loop of solve_circuit_lp, lines 215-221: each log line is split
on single spaces; a line whose token list contains the objective annotation
contributes the pair of its first token and the int value of its
second-to-last token.  A matching line with fewer than two tokens aborts the
loop with IndexError (line[-2]); a second-to-last token that int cannot parse
aborts it with ValueError.  Both exceptions escape solve_circuit_lp. -/
def decodeLines : List String → Except String (List (String × Int))
  | [] => Except.ok []
  | line :: rest =>
    let toks := pySplit line ' '
    if toks.contains objTag then
      if toks.length < 2 then Except.error "IndexError"
      else
        match pyInt (toks.getD (toks.length - 2) "") with
        | none => Except.error "ValueError"
        | some v =>
          match decodeLines rest with
          | Except.ok cs => Except.ok ((toks.headD "", v) :: cs)
          | Except.error e => Except.error e
    else decodeLines rest

/-! ### Filename handling of solve_circuit_lp: lines 200-213 and 217-226 -/

/-- Python slice s[-3:]: the last three characters, or all of s when it is
shorter. -/
def pyLast3 (s : String) : String :=
  String.mk (s.toList.drop (s.toList.length - 3))

/-- Python slice s[:-3]: everything but the last three characters, empty when
s has three characters or fewer. -/
def pyDropLast3 (s : String) : String :=
  String.mk (s.toList.take (s.toList.length - 3))

/-- Filename normalization of solve_circuit_lp, lines 200-203: None becomes
the base name circuit, and a trailing .lp is stripped. -/
def normalizeFilename (filename : Option String) : String :=
  let f := match filename with
    | none => "circuit"
    | some s => s
  if pyLast3 f = ".lp" then pyDropLast3 f else f

/-- Path the model file is written to (line 205 hands the normalized base to
make_circuit_lp, which appends .lp at line 131). -/
def lpFilePath (filename : Option String) : String :=
  normalizeFilename filename ++ ".lp"

/-- Path of the solver log (lines 207-226 always use the normalized base with
the .log suffix). -/
def logFilePath (filename : Option String) : String :=
  normalizeFilename filename ++ ".log"

/-! ### Semantics of constraints -/

/-- Value of a term list under an assignment of integers to variables. -/
def evalTerms (σ : Var → Int) (ts : List (Int × Var)) : Int :=
  (ts.map (fun t => t.1 * σ t.2)).sum

/-- A constraint holds under an assignment when the comparison between its
evaluated sides is true. -/
def constrHolds (σ : Var → Int) (c : Constr) : Prop :=
  match c.sense with
  | Sense.ge => c.rhsConst + evalTerms σ c.rhsTerms ≤ evalTerms σ c.lhs
  | Sense.le => evalTerms σ c.lhs ≤ c.rhsConst + evalTerms σ c.rhsTerms

instance (σ : Var → Int) (c : Constr) : Decidable (constrHolds σ c) := by
  unfold constrHolds
  exact match c.sense with
  | Sense.ge => inferInstanceAs (Decidable (_ ≤ _))
  | Sense.le => inferInstanceAs (Decidable (_ ≤ _))

/-- An assignment is binary when every variable receives 0 or 1. -/
def IsBinary (σ : Var → Int) : Prop :=
  ∀ x : Var, σ x = 0 ∨ σ x = 1

/-- Weighted input sum of gate k at 1-based row j: the external contributions
table[j][el] * u.el.k plus the internal contributions r.i.k.j for i < k. -/
def inSum (σ : Var → Int) (truth : List Nat) (k j : Nat) : Int :=
  let n := numInputs truth
  ((List.range' 1 n).map
    (fun el => (tableEntry n (j - 1) (el - 1) : Int) * σ (Var.u el k))).sum
  + ((List.range' 1 (k - 1)).map (fun i => σ (Var.r i k j))).sum

/-- Number of incoming connections of gate k under an assignment. -/
def inDeg (σ : Var → Int) (n k : Nat) : Int :=
  ((List.range' 1 n).map (fun el => σ (Var.u el k))).sum
  + ((List.range' 1 (k - 1)).map (fun i => σ (Var.v i k))).sum

/-- Logical output of a gate with marker g on a weighted input sum s, as
Muroga's threshold formulation defines it: 1 exactly when s is at most -g.
For a NOT gate (marker 0) this is 1 exactly when no connected input is 1; for
a NAND gate (marker -1), 1 exactly when at most one connected input is 1,
which is the Boolean NAND of its at most two connected inputs. -/
def gateOutput (g s : Int) : Int :=
  if s ≤ -g then 1 else 0

end CircuitOpt

namespace CircuitOpt

/-! ### Helper lemmas about the floor logarithm and the assignment matrix -/

lemma log2Fuel_eq_log (fuel n : Nat) (h : n ≤ fuel) : log2Fuel fuel n = Nat.log 2 n := by
  induction fuel generalizing n with
  | zero =>
    interval_cases n
    simp [log2Fuel]
  | succ fuel ih =>
    rw [log2Fuel]
    by_cases h2 : 2 ≤ n
    · rw [if_pos h2, ih (n / 2) (by omega)]
      have h1 : Nat.log 2 (n / 2) = Nat.log 2 n - 1 := Nat.log_div_base 2 n
      have hp : 0 < Nat.log 2 n := Nat.log_pos (by norm_num) h2
      omega
    · rw [if_neg h2]
      interval_cases n
      · rw [Nat.log_zero_right]
      · rw [Nat.log_one_right]

lemma numInputs_two_pow (truth : List Nat) (n : Nat) (h : truth.length = 2 ^ n) :
    numInputs truth = n := by
  rw [numInputs, h, log2Fuel_eq_log _ _ le_rfl, Nat.log_pow (by norm_num)]

lemma truthBits_length (truth : String) : (truthBits truth).length = truth.length := by
  cases truth
  simp [truthBits, String.length, String.toList]

lemma getD_mem_of_lt {α : Type} (l : List α) (n : Nat) (d : α) (h : n < l.length) :
    l.getD n d ∈ l := by
  rw [List.getD_eq_getElem l d h]
  exact List.getElem_mem h

lemma getD_map_of_lt {α β : Type} (f : α → β) (T : List α) (j : Nat) (d : β) (d' : α)
    (h : j < T.length) : (T.map f).getD j d = f (T.getD j d') := by
  rw [List.getD_eq_getElem _ _ (by simpa using h), List.getD_eq_getElem _ _ h, List.getElem_map]

lemma pyProduct01_succ (n : Nat) :
    pyProduct01 (n + 1)
      = (pyProduct01 n).map (fun t => 0 :: t) ++ (pyProduct01 n).map (fun t => 1 :: t) := by
  rw [pyProduct01]
  simp [List.flatMap_cons, List.flatMap_nil]

lemma pyProduct01_length (n : Nat) : (pyProduct01 n).length = 2 ^ n := by
  induction n with
  | zero => rfl
  | succ n ih =>
    rw [pyProduct01_succ]
    simp only [List.length_append, List.length_map, ih]
    rw [pow_succ]
    omega

lemma circuitTable_succ (n : Nat) :
    circuitTable (n + 1)
      = (circuitTable n).map (fun t => t ++ [0]) ++ (circuitTable n).map (fun t => t ++ [1]) := by
  simp [circuitTable, pyProduct01_succ, List.map_map, Function.comp_def]

lemma circuitTable_length (n : Nat) : (circuitTable n).length = 2 ^ n := by
  simp [circuitTable, pyProduct01_length]

lemma circuitTable_row_length (n : Nat) : ∀ row ∈ circuitTable n, row.length = n := by
  induction n with
  | zero =>
    intro row h
    simp [circuitTable, pyProduct01] at h
    simp [h]
  | succ n ih =>
    intro row h
    rw [circuitTable_succ] at h
    rcases List.mem_append.mp h with h' | h' <;>
      obtain ⟨t, ht, rfl⟩ := List.mem_map.mp h' <;> simp [ih t ht]

lemma circuitTable_mem01 (n : Nat) :
    ∀ row ∈ circuitTable n, ∀ x ∈ row, x = 0 ∨ x = 1 := by
  induction n with
  | zero =>
    intro row h
    simp [circuitTable, pyProduct01] at h
    simp [h]
  | succ n ih =>
    intro row h x hx
    rw [circuitTable_succ] at h
    rcases List.mem_append.mp h with h' | h' <;>
      obtain ⟨t, ht, rfl⟩ := List.mem_map.mp h' <;>
      rcases List.mem_append.mp hx with hx' | hx'
    · exact ih t ht x hx'
    · simp at hx'
      omega
    · exact ih t ht x hx'
    · simp at hx'
      omega

lemma tableEntry01 (n j c : Nat) : tableEntry n j c = 0 ∨ tableEntry n j c = 1 := by
  unfold tableEntry
  by_cases hj : j < (circuitTable n).length
  · by_cases hc : c < ((circuitTable n).getD j []).length
    · exact circuitTable_mem01 n _ (getD_mem_of_lt _ _ _ hj) _ (getD_mem_of_lt _ _ _ hc)
    · rw [List.getD_eq_default _ _ (show ((circuitTable n).getD j []).length ≤ c by omega)]
      left
      rfl
  · have hrow : (circuitTable n).getD j [] = [] :=
      List.getD_eq_default _ _ (show (circuitTable n).length ≤ j by omega)
    rw [hrow]
    left
    simp

lemma bit_add_pow (n c m : Nat) (hc : c < n) :
    (2 ^ n + m) / 2 ^ c % 2 = m / 2 ^ c % 2 := by
  have h1 : 2 ^ n = 2 ^ c * 2 ^ (n - c) := by
    rw [← pow_add]
    congr 1
    omega
  rw [h1, Nat.mul_add_div (Nat.pos_pow_of_pos c (by norm_num))]
  have h2 : 2 ^ (n - c) = 2 * 2 ^ (n - c - 1) := by
    rw [← pow_succ']
    congr 1
    omega
  rw [h2, Nat.mul_add_mod]

lemma tableEntry_eq_bit (n : Nat) :
    ∀ j c : Nat, j < 2 ^ n → c < n → tableEntry n j c = j / 2 ^ c % 2 := by
  induction n with
  | zero =>
    intro j c _ hc
    exact absurd hc (Nat.not_lt_zero c)
  | succ n ih =>
    intro j c hj hc
    have hlenL : ((circuitTable n).map (fun t => t ++ [0])).length = 2 ^ n := by
      simp [circuitTable_length]
    by_cases hj' : j < 2 ^ n
    · have heq : tableEntry (n + 1) j c = ((circuitTable n).getD j [] ++ [0]).getD c 0 := by
        unfold tableEntry
        rw [circuitTable_succ, List.getD_append _ _ _ _ (by omega),
          getD_map_of_lt _ _ _ _ [] (by rw [circuitTable_length]; omega)]
      have hrow : ((circuitTable n).getD j []).length = n :=
        circuitTable_row_length n _ (getD_mem_of_lt _ _ _ (by rw [circuitTable_length]; omega))
      by_cases hc' : c < n
      · rw [heq, List.getD_append _ _ _ _ (by omega)]
        exact ih j c hj' hc'
      · have hcn : c = n := by omega
        rw [heq, hcn, List.getD_append_right _ _ _ _ (by omega), Nat.div_eq_of_lt hj']
        have h0 : n - ((circuitTable n).getD j []).length = 0 := by omega
        rw [h0]
        rfl
    · have hsub : j - 2 ^ n < 2 ^ n := by
        rw [pow_succ] at hj
        omega
      have heq : tableEntry (n + 1) j c
          = ((circuitTable n).getD (j - 2 ^ n) [] ++ [1]).getD c 0 := by
        unfold tableEntry
        rw [circuitTable_succ, List.getD_append_right _ _ _ _ (by omega),
          getD_map_of_lt _ _ _ _ [] (by rw [circuitTable_length, hlenL]; omega), hlenL]
      have hrow : ((circuitTable n).getD (j - 2 ^ n) []).length = n :=
        circuitTable_row_length n _
          (getD_mem_of_lt _ _ _ (by rw [circuitTable_length]; omega))
      have hj2 : j = 2 ^ n + (j - 2 ^ n) := by omega
      by_cases hc' : c < n
      · rw [heq, List.getD_append _ _ _ _ (by omega)]
        have hi := ih (j - 2 ^ n) c hsub hc'
        unfold tableEntry at hi
        rw [hi]
        have hb := bit_add_pow n c (j - 2 ^ n) hc'
        rw [← hj2] at hb
        exact hb.symm
      · have hcn : c = n := by omega
        have hdiv : j / 2 ^ n = 1 := by
          rw [hj2, Nat.add_div_left _ (Nat.pos_pow_of_pos n (by norm_num)),
            Nat.div_eq_of_lt hsub]
        rw [heq, hcn, List.getD_append_right _ _ _ _ (by omega), hdiv]
        have h0 : n - ((circuitTable n).getD (j - 2 ^ n) []).length = 0 := by omega
        rw [h0]
        rfl

end CircuitOpt

namespace CircuitOpt

/-- C5, counterexample.  The claim says that after the column reversal,
column 1 of the assignment matrix holds the most significant bit of each
row's enumeration index.  At n = 2, row index 1 (the second row), column 1
holds 1 while the most significant bit of 1 in two positions is 0: the
reversal puts the least significant bit first. -/
theorem C5_counterexample :
    ¬ (∀ n j : Nat, 1 ≤ n → j < 2 ^ n → tableEntry n j 0 = j / 2 ^ (n - 1) % 2) := by
  intro h
  have h2 := h 2 1 (by norm_num) (by norm_num)
  revert h2
  decide

/-- C5, amended.  The assignment matrix is the 2^n by n matrix listing the
Cartesian product of 0 and 1 in lexicographic order as rows and then
reversing the column order; consequently column c (0-based) of row j holds
bit c of the row's enumeration index j, so column 1 holds the least
significant bit, not the most significant one. -/
theorem C5_table_characterization (n j c : Nat) (hj : j < 2 ^ n) (hc : c < n) :
    (circuitTable n).length = 2 ^ n
    ∧ ((circuitTable n).getD j []).length = n
    ∧ tableEntry n j c = j / 2 ^ c % 2 :=
  ⟨circuitTable_length n,
   circuitTable_row_length n _ (getD_mem_of_lt _ _ _ (by rw [circuitTable_length]; omega)),
   tableEntry_eq_bit n j c hj hc⟩

/-- C5, witness for the amended theorem at n = 2, row 1, column 0. -/
theorem C5_witness :
    (1 < 2 ^ 2 ∧ 0 < 2)
    ∧ ((circuitTable 2).length = 2 ^ 2
       ∧ ((circuitTable 2).getD 1 []).length = 2
       ∧ tableEntry 2 1 0 = 1 / 2 ^ 0 % 2) :=
  ⟨by norm_num, C5_table_characterization 2 1 0 (by norm_num) (by norm_num)⟩

/-- C9.  make_circuit_lp maps each tag of the split gates string positionally
to its marker: the tag NOT to 0 and every other tag, NAND or unrecognized, to
-1, totally and without validation; in particular the unrecognized tag XOR
silently becomes the NAND marker. -/
theorem C9_gate_tag_marker :
    (∀ (gates : String) (k : Nat),
      (parseGates gates)[k]?
        = ((pySplit gates ' ')[k]?).map (fun t => if t = "NOT" then (0 : Int) else -1))
    ∧ parseGates "NOT NAND XOR" = [0, -1, -1] := by
  constructor
  · intro gates k
    rw [parseGates, List.getElem?_map]
    have htm : tagMark = fun t => if t = "NOT" then (0 : Int) else -1 := by
      funext t
      by_cases h : t = "NOT" <;> simp [tagMark, h]
    rw [htm]
  · rfl

/-- C10.  solve_circuit_lp normalizes the filename before touching any file:
None becomes the base circuit, a trailing .lp (the last three characters) is
stripped, any other name is kept; the model always goes to base.lp and the
log to base.log, and the strings foo.lp and foo normalize identically. -/
theorem C10_filename_normalization :
    normalizeFilename none = "circuit"
    ∧ (∀ f : String, pyLast3 f = ".lp" → normalizeFilename (some f) = pyDropLast3 f)
    ∧ (∀ f : String, pyLast3 f ≠ ".lp" → normalizeFilename (some f) = f)
    ∧ (∀ fn : Option String,
        lpFilePath fn = normalizeFilename fn ++ ".lp"
        ∧ logFilePath fn = normalizeFilename fn ++ ".log")
    ∧ normalizeFilename (some "foo.lp") = normalizeFilename (some "foo") := by
  refine ⟨rfl, ?_, ?_, fun fn => ⟨rfl, rfl⟩, rfl⟩
  · intro f h
    simp [normalizeFilename, h]
  · intro f h
    simp [normalizeFilename, h]

/-- C10, witness: the concrete name foo.lp satisfies the stripping hypothesis
and normalizes to foo. -/
theorem C10_witness :
    pyLast3 "foo.lp" = ".lp" ∧ normalizeFilename (some "foo.lp") = pyDropLast3 "foo.lp" :=
  ⟨rfl, C10_filename_normalization.2.1 "foo.lp" rfl⟩

/-- C6, code evaluation at the failing input.  For the truth string 010,
whose length 3 is not a power of two, make_circuit_lp performs no validation:
it still allocates the variable space for the truncated size n = 1 (the
single variable u.1.1 here) and then aborts with an IndexError raised by the
assignment-matrix row access in the final-gate loop, not with an
input-validation error before allocation. -/
theorem C6_missing_length_validation :
    make_circuit_lp "010" "NOT" = Except.error "IndexError"
    ∧ allocVars (truthBits "010") (parseGates "NOT") = [Var.u 1 1] :=
  ⟨rfl, rfl⟩

/-- C8, code evaluation at the failing input.  On a solution-log line that
carries the objective annotation but whose value field is not a parseable
integer, the decoding loop of solve_circuit_lp aborts with the uncaught
ValueError raised by int, instead of skipping the line or failing with a
deliberate decoding error. -/
theorem C8_decoder_crash_on_unparseable_value :
    decodeLines ["u.1.2 abc \t(obj:1)\n"] = Except.error "ValueError" := rfl

/-- C1, code evaluation at the failing input.  For truth 01 and markers
NAND, NOT (so R = 2 and the final gate is a NOT with marker 0), the two
final-gate constraints are emitted with right-hand constants 2 and -1: the
source reads gates[k-1] through the stale loop variable k = staleK 2 = 1,
i.e. the marker -1 of gate R-1, whereas the claim requires gate R's own
marker 0, which would give the constants 1 - 0 = 1 and 0. -/
theorem C1_final_gate_stale_marker :
    finalConstrs [0, 1] [-1, 0]
      = [⟨[((0 : Int), Var.u 1 2), ((1 : Int), Var.r 1 2 1)], Sense.ge, [], 2⟩,
         ⟨[((-1 : Int), Var.u 1 2), ((-1 : Int), Var.r 1 2 2)], Sense.ge, [], -1⟩]
    ∧ ([-1, 0] : List Int).getD (2 - 1) 0 = 0
    ∧ ([-1, 0] : List Int).getD (staleK 2 - 1) 0 = -1
    ∧ ((2 : Int) ≠ 1 - 0 ∧ (-1 : Int) ≠ 0) := by
  refine ⟨rfl, rfl, rfl, by norm_num⟩

end CircuitOpt

namespace CircuitOpt

/-- C7.  The decoding loop returns the empty list whenever no log line
carries the objective annotation (in particular on an infeasible run), and
whenever it returns successfully, the result is exactly the entry of each
annotated line, one entry per annotated line, in log order. -/
theorem C7_decoder_log_correspondence (lines : List String) :
    ((∀ l ∈ lines, (pySplit l ' ').contains objTag = false) →
        decodeLines lines = Except.ok [])
    ∧ (∀ res, decodeLines lines = Except.ok res →
        res = (lines.filter (fun l => (pySplit l ' ').contains objTag)).map lineEntry) := by
  induction lines with
  | nil =>
    refine ⟨fun _ => rfl, fun res h => ?_⟩
    simp only [decodeLines, Except.ok.injEq] at h
    simp [h.symm]
  | cons l rest ih =>
    constructor
    · intro hall
      have hl := hall l (List.mem_cons_self l rest)
      simp only [decodeLines, hl]
      exact ih.1 (fun x hx => hall x (List.mem_cons_of_mem l hx))
    · intro res h
      simp only [decodeLines] at h
      by_cases hc : (pySplit l ' ').contains objTag
      · simp only [hc, if_true] at h
        by_cases hlen : (pySplit l ' ').length < 2
        · rw [if_pos hlen] at h
          exact absurd h (by simp)
        · rw [if_neg hlen] at h
          cases hint : pyInt ((pySplit l ' ').getD ((pySplit l ' ').length - 2) "") with
          | none =>
            rw [hint] at h
            exact absurd h (by simp)
          | some v =>
            rw [hint] at h
            cases hrest : decodeLines rest with
            | error e =>
              rw [hrest] at h
              exact absurd h (by simp)
            | ok cs =>
              rw [hrest] at h
              simp only [Except.ok.injEq] at h
              rw [List.filter_cons_of_pos (by simpa using hc), List.map_cons, ← h]
              have hcs := ih.2 cs hrest
              rw [← hcs]
              congr 1
              simp only [lineEntry]
              rw [hint, Option.getD_some]
      · simp only [hc, if_false, Bool.false_eq_true] at h
        rw [List.filter_cons_of_neg (by simpa using hc)]
        exact ih.2 res h

/-- C7, witness: a log with no annotated line decodes to the empty list, and
a log with one annotated line decodes to exactly that line's entry. -/
theorem C7_witness :
    (∀ l ∈ (["presolving", "done"] : List String), (pySplit l ' ').contains objTag = false)
    ∧ decodeLines ["presolving", "done"] = Except.ok []
    ∧ decodeLines ["u.1.2 1 \t(obj:1)\n", "junk"] = Except.ok [("u.1.2", 1)]
    ∧ [(("u.1.2" : String), (1 : Int))]
        = ((["u.1.2 1 \t(obj:1)\n", "junk"] : List String).filter
            (fun l => (pySplit l ' ').contains objTag)).map lineEntry :=
  ⟨by decide, (C7_decoder_log_correspondence _).1 (by decide), rfl,
    (C7_decoder_log_correspondence _).2 _ rfl⟩

end CircuitOpt

namespace CircuitOpt

/-! ### Generic counting and evaluation helpers -/

lemma count_flatMap_zero {α β : Type} [DecidableEq α] (l : List β) (f : β → List α) (a : α)
    (h : ∀ b ∈ l, (f b).count a = 0) : (l.flatMap f).count a = 0 := by
  induction l with
  | nil => rfl
  | cons x t ih =>
    simp only [List.flatMap_cons, List.count_append]
    rw [h x (by simp), ih (fun b hb => h b (by simp [hb]))]

lemma count_flatMap_delta {α β : Type} [DecidableEq α] (l : List β) (f : β → List α) (a : α)
    (x : β) (hx : x ∈ l) (hnd : l.Nodup)
    (h0 : ∀ y ∈ l, y ≠ x → (f y).count a = 0) :
    (l.flatMap f).count a = (f x).count a := by
  induction l with
  | nil => exact absurd hx (List.not_mem_nil x)
  | cons y t ih =>
    have hy : y ∉ t := (List.nodup_cons.mp hnd).1
    simp only [List.flatMap_cons, List.count_append]
    rcases List.mem_cons.mp hx with heq | hxt
    · subst heq
      rw [count_flatMap_zero t f a
        (fun b hb => h0 b (List.mem_cons_of_mem x hb) (fun hbx => hy (hbx ▸ hb)))]
      omega
    · have hyx : y ≠ x := fun hyx => hy (hyx ▸ hxt)
      rw [h0 y (List.mem_cons_self y t) hyx,
        ih hxt (List.nodup_cons.mp hnd).2
          (fun b hb hbx => h0 b (List.mem_cons_of_mem y hb) hbx)]
      omega

lemma count_pair {α : Type} [DecidableEq α] (a b c : α) :
    List.count a [b, c] = (if b = a then 1 else 0) + (if c = a then 1 else 0) := by
  simp only [List.count_cons, List.count_nil, beq_iff_eq]
  split_ifs <;> omega

lemma sum_map_neg {α : Type} (l : List α) (f : α → Int) :
    (l.map (fun x => -f x)).sum = -(l.map f).sum := by
  induction l with
  | nil => simp
  | cons a t ih =>
    simp only [List.map_cons, List.sum_cons, ih]
    ring

lemma sum01_bounds (l : List Int) (h : ∀ x ∈ l, x = 0 ∨ x = 1) :
    0 ≤ l.sum ∧ l.sum ≤ (l.length : Int) := by
  induction l with
  | nil => simp
  | cons a t ih =>
    have ha := h a (List.mem_cons_self a t)
    have ht := ih (fun x hx => h x (List.mem_cons_of_mem a hx))
    simp only [List.sum_cons, List.length_cons]
    push_cast
    rcases ha with rfl | rfl <;> omega

lemma evalTerms_append (σ : Var → Int) (ts1 ts2 : List (Int × Var)) :
    evalTerms σ (ts1 ++ ts2) = evalTerms σ ts1 + evalTerms σ ts2 := by
  simp [evalTerms]

lemma evalTerms_map_pair (σ : Var → Int) (l : List Nat) (f : Nat → Int) (g : Nat → Var) :
    evalTerms σ (l.map (fun x => (f x, g x))) = (l.map (fun x => f x * σ (g x))).sum := by
  simp [evalTerms, List.map_map, Function.comp_def]

lemma evalTerms_neg_pairs (σ : Var → Int) (l : List Nat) (f : Nat → Int) (g : Nat → Var) :
    evalTerms σ (l.map (fun x => (-f x, g x))) = -(l.map (fun x => f x * σ (g x))).sum := by
  rw [evalTerms_map_pair]
  rw [show (fun x => -f x * σ (g x)) = fun x => -(f x * σ (g x)) from funext fun x => by ring]
  exact sum_map_neg l _

lemma evalTerms_negone_pairs (σ : Var → Int) (l : List Nat) (g : Nat → Var) :
    evalTerms σ (l.map (fun x => ((-1 : Int), g x))) = -(l.map (fun x => σ (g x))).sum := by
  rw [evalTerms_map_pair]
  rw [show (fun x => (-1 : Int) * σ (g x)) = fun x => -σ (g x) from funext fun x => by ring]
  exact sum_map_neg l _

lemma evalTerms_one_pairs (σ : Var → Int) (l : List Nat) (g : Nat → Var) :
    evalTerms σ (l.map (fun x => ((1 : Int), g x))) = (l.map (fun x => σ (g x))).sum := by
  rw [evalTerms_map_pair]
  simp

end CircuitOpt

namespace CircuitOpt

/-! ### Shape facts about the four constraint groups -/

/-- Proof-side discriminator: whether a variable is one of the auxiliary
gate-output variables p.k.j. -/
def Var.isP : Var → Bool
  | Var.p _ _ => true
  | _ => false

lemma mem_nonFinalConstrs {truth : List Nat} {marks : List Int} {c : Constr}
    (h : c ∈ nonFinalConstrs truth marks) :
    ∃ k j, c = nfConstr1 truth marks k j ∨ c = nfConstr2 truth marks k j := by
  simp only [nonFinalConstrs, List.mem_flatMap, List.mem_cons,
    List.not_mem_nil, or_false] at h
  obtain ⟨k, _, j, _, hc⟩ := h
  exact ⟨k, j, hc⟩

lemma nonFinal_rhsTerms_ne_nil {truth : List Nat} {marks : List Int} {c : Constr}
    (h : c ∈ nonFinalConstrs truth marks) : c.rhsTerms ≠ [] := by
  obtain ⟨k, j, hc | hc⟩ := mem_nonFinalConstrs h <;> subst hc <;>
    simp [nfConstr1, nfConstr2]

lemma mem_finalConstrs {truth : List Nat} {marks : List Int} {c : Constr}
    (h : c ∈ finalConstrs truth marks) :
    ∃ j val, c = finalRowConstr truth marks j val := by
  simp only [finalConstrs, List.mem_map] at h
  obtain ⟨e, _, hc⟩ := h
  exact ⟨e.1, e.2, hc.symm⟩

lemma finalRow_shape (truth : List Nat) (marks : List Int) (j val : Nat) :
    (finalRowConstr truth marks j val).rhsTerms = []
    ∧ (finalRowConstr truth marks j val).sense = Sense.ge
    ∧ ∀ t ∈ (finalRowConstr truth marks j val).lhs, t.2.isP = false := by
  refine ⟨?_, ?_, ?_⟩
  · unfold finalRowConstr
    split_ifs <;> rfl
  · unfold finalRowConstr
    split_ifs <;> rfl
  · intro t ht
    unfold finalRowConstr at ht
    split_ifs at ht <;>
    · simp only [List.mem_append, List.mem_map] at ht
      rcases ht with ⟨el, _, rfl⟩ | ⟨i, _, rfl⟩ <;> rfl

lemma mem_andLinConstrs {truth : List Nat} {marks : List Int} {c : Constr}
    (h : c ∈ andLinConstrs truth marks) :
    ∃ i k j, c = andConstr1 i k j ∨ c = andConstr2 i k j := by
  simp only [andLinConstrs, List.mem_flatMap, List.mem_cons,
    List.not_mem_nil, or_false] at h
  obtain ⟨k, _, j, _, i, _, hc⟩ := h
  exact ⟨i, k, j, hc⟩

lemma mem_fanInConstrs {truth : List Nat} {marks : List Int} {c : Constr}
    (h : c ∈ fanInConstrs truth marks) :
    ∃ k, c = fanInConstr truth marks k := by
  simp only [fanInConstrs, List.mem_map] at h
  obtain ⟨k, _, hc⟩ := h
  exact ⟨k, hc.symm⟩

lemma fanIn_shape (truth : List Nat) (marks : List Int) (k : Nat) :
    (fanInConstr truth marks k).rhsTerms = []
    ∧ (fanInConstr truth marks k).sense = Sense.le
    ∧ ∀ t ∈ (fanInConstr truth marks k).lhs, t.1 = 1 := by
  refine ⟨rfl, rfl, ?_⟩
  intro t ht
  simp only [fanInConstr, List.mem_append, List.mem_map] at ht
  rcases ht with ⟨el, _, rfl⟩ | ⟨i, _, rfl⟩ <;> rfl

/-! ### Distinctness of constraint families -/

lemma bigA_pos (truth : List Nat) {marks : List Int} (hR : 1 ≤ marks.length) :
    0 < bigA truth marks := by
  have h1 : (0 : Int) ≤ (numInputs truth : Int) := Int.natCast_nonneg _
  have h2 : (1 : Int) ≤ (marks.length : Int) := by exact_mod_cast hR
  unfold bigA
  omega

lemma nf1_inj {truth : List Nat} {marks : List Int} {k j k' j' : Nat}
    (h : nfConstr1 truth marks k j = nfConstr1 truth marks k' j') : k = k' ∧ j = j' := by
  have h2 := congrArg Constr.rhsTerms h
  simp only [nfConstr1, List.cons.injEq, Prod.mk.injEq, Var.p.injEq, and_true] at h2
  exact h2.2

lemma nf2_inj {truth : List Nat} {marks : List Int} {k j k' j' : Nat}
    (h : nfConstr2 truth marks k j = nfConstr2 truth marks k' j') : k = k' ∧ j = j' := by
  have h2 := congrArg Constr.rhsTerms h
  simp only [nfConstr2, List.cons.injEq, Prod.mk.injEq, Var.p.injEq, and_true] at h2
  exact h2.2

lemma nf1_ne_nf2 {truth : List Nat} {marks : List Int} (hR : 1 ≤ marks.length)
    (k j k' j' : Nat) : nfConstr1 truth marks k j ≠ nfConstr2 truth marks k' j' := by
  intro h
  have h2 := congrArg Constr.rhsTerms h
  simp only [nfConstr1, nfConstr2, List.cons.injEq, Prod.mk.injEq] at h2
  have hA := bigA_pos truth hR
  omega

lemma a1_inj {i k j i' k' j' : Nat}
    (h : andConstr1 i k j = andConstr1 i' k' j') : i = i' ∧ k = k' ∧ j = j' := by
  have h2 := congrArg Constr.lhs h
  simp only [andConstr1, List.cons.injEq, Prod.mk.injEq, Var.p.injEq, Var.v.injEq,
    Var.r.injEq, true_and, and_true] at h2
  tauto

lemma a2_inj {i k j i' k' j' : Nat}
    (h : andConstr2 i k j = andConstr2 i' k' j') : i = i' ∧ k = k' ∧ j = j' := by
  have h2 := congrArg Constr.lhs h
  simp only [andConstr2, List.cons.injEq, Prod.mk.injEq, Var.p.injEq, Var.v.injEq,
    Var.r.injEq, true_and, and_true] at h2
  tauto

lemma a1_ne_a2 (i k j i' k' j' : Nat) : andConstr1 i k j ≠ andConstr2 i' k' j' := by
  intro h
  have h2 := congrArg Constr.sense h
  simp only [andConstr1, andConstr2] at h2
  exact absurd h2 (by simp)

/-! ### Facts about parsing and the ok branch of the builder -/

lemma parseGates_mem (gates : String) : ∀ g ∈ parseGates gates, g = 0 ∨ g = -1 := by
  intro g hg
  simp only [parseGates, List.mem_map] at hg
  obtain ⟨t, _, rfl⟩ := hg
  unfold tagMark
  split_ifs <;> simp

lemma makeCircuit_ok (truth : List Nat) (marks : List Int) (n : Nat)
    (h : truth.length = 2 ^ n) :
    makeCircuitConstrs truth marks = Except.ok (modelConstrs truth marks) := by
  have hguard : ¬ (2 ^ numInputs truth < truth.length) := by
    rw [numInputs_two_pow truth n h, h]
    omega
  rw [makeCircuitConstrs, if_neg hguard]

lemma make_circuit_lp_eq (truth gates : String) (n : Nat)
    (hdig : ∀ ch ∈ truth.toList, ch.isDigit)
    (hlen : truth.length = 2 ^ n) :
    make_circuit_lp truth gates
      = Except.ok (modelConstrs (truthBits truth) (parseGates gates)) := by
  have hpos : truth.length ≠ 0 := by
    rw [hlen]
    exact (Nat.pos_pow_of_pos n (by norm_num)).ne'
  rw [make_circuit_lp, if_neg hpos,
    if_pos (List.all_eq_true.mpr (fun x hx => hdig x hx))]
  exact makeCircuit_ok _ _ n (by rw [truthBits_length]; exact hlen)

end CircuitOpt

namespace CircuitOpt

lemma count_nf1 (truth : List Nat) (marks : List Int) (n k j : Nat)
    (hlen : truth.length = 2 ^ n)
    (hk1 : 1 ≤ k) (hk2 : k ≤ marks.length - 1)
    (hj1 : 1 ≤ j) (hj2 : j ≤ 2 ^ n) :
    (modelConstrs truth marks).count (nfConstr1 truth marks k j) = 1 := by
  have hR : 2 ≤ marks.length := by omega
  have hR1 : 1 ≤ marks.length := by omega
  have hn : numInputs truth = n := numInputs_two_pow truth n hlen
  have hfin : (finalConstrs truth marks).count (nfConstr1 truth marks k j) = 0 := by
    rw [List.count_eq_zero]
    intro hmem
    obtain ⟨j', val, hc⟩ := mem_finalConstrs hmem
    have h1 := (finalRow_shape truth marks j' val).1
    rw [← hc] at h1
    simp [nfConstr1] at h1
  have hand : (andLinConstrs truth marks).count (nfConstr1 truth marks k j) = 0 := by
    rw [List.count_eq_zero]
    intro hmem
    obtain ⟨i', k', j', hc | hc⟩ := mem_andLinConstrs hmem <;>
      · have h2 := congrArg Constr.rhsTerms hc
        simp [nfConstr1, andConstr1, andConstr2] at h2
  have hfan : (fanInConstrs truth marks).count (nfConstr1 truth marks k j) = 0 := by
    rw [List.count_eq_zero]
    intro hmem
    obtain ⟨k', hc⟩ := mem_fanInConstrs hmem
    have h2 := congrArg Constr.rhsTerms hc
    simp [nfConstr1, fanInConstr] at h2
  have hnf : (nonFinalConstrs truth marks).count (nfConstr1 truth marks k j) = 1 := by
    unfold nonFinalConstrs
    rw [hn]
    rw [count_flatMap_delta _ _ _ k (by rw [List.mem_range'_1]; omega)
      (List.nodup_range' 1 (marks.length - 1))
      (by
        intro k' _ hk'
        apply count_flatMap_zero
        intro j' _
        rw [count_pair, if_neg (fun he => hk' (nf1_inj he).1),
          if_neg (fun he => nf1_ne_nf2 hR1 k j k' j' he.symm)])]
    rw [count_flatMap_delta _ _ _ j (by rw [List.mem_range'_1]; omega)
      (List.nodup_range' 1 (2 ^ n))
      (by
        intro j' _ hj'
        rw [count_pair, if_neg (fun he => hj' (nf1_inj he).2),
          if_neg (fun he => nf1_ne_nf2 hR1 k j k j' he.symm)])]
    rw [count_pair, if_pos rfl, if_neg (fun he => nf1_ne_nf2 hR1 k j k j he.symm)]
  unfold modelConstrs
  rw [List.count_append, List.count_append, List.count_append, hnf, hfin, hand, hfan]

end CircuitOpt

namespace CircuitOpt

lemma count_nf2 (truth : List Nat) (marks : List Int) (n k j : Nat)
    (hlen : truth.length = 2 ^ n)
    (hk1 : 1 ≤ k) (hk2 : k ≤ marks.length - 1)
    (hj1 : 1 ≤ j) (hj2 : j ≤ 2 ^ n) :
    (modelConstrs truth marks).count (nfConstr2 truth marks k j) = 1 := by
  have hR : 2 ≤ marks.length := by omega
  have hR1 : 1 ≤ marks.length := by omega
  have hn : numInputs truth = n := numInputs_two_pow truth n hlen
  have hfin : (finalConstrs truth marks).count (nfConstr2 truth marks k j) = 0 := by
    rw [List.count_eq_zero]
    intro hmem
    obtain ⟨j', val, hc⟩ := mem_finalConstrs hmem
    have h1 := (finalRow_shape truth marks j' val).1
    rw [← hc] at h1
    simp [nfConstr2] at h1
  have hand : (andLinConstrs truth marks).count (nfConstr2 truth marks k j) = 0 := by
    rw [List.count_eq_zero]
    intro hmem
    obtain ⟨i', k', j', hc | hc⟩ := mem_andLinConstrs hmem <;>
      · have h2 := congrArg Constr.rhsTerms hc
        simp [nfConstr2, andConstr1, andConstr2] at h2
  have hfan : (fanInConstrs truth marks).count (nfConstr2 truth marks k j) = 0 := by
    rw [List.count_eq_zero]
    intro hmem
    obtain ⟨k', hc⟩ := mem_fanInConstrs hmem
    have h2 := congrArg Constr.rhsTerms hc
    simp [nfConstr2, fanInConstr] at h2
  have hnf : (nonFinalConstrs truth marks).count (nfConstr2 truth marks k j) = 1 := by
    unfold nonFinalConstrs
    rw [hn]
    rw [count_flatMap_delta _ _ _ k (by rw [List.mem_range'_1]; omega)
      (List.nodup_range' 1 (marks.length - 1))
      (by
        intro k' _ hk'
        apply count_flatMap_zero
        intro j' _
        rw [count_pair, if_neg (fun he => nf1_ne_nf2 hR1 k' j' k j he),
          if_neg (fun he => hk' (nf2_inj he).1)])]
    rw [count_flatMap_delta _ _ _ j (by rw [List.mem_range'_1]; omega)
      (List.nodup_range' 1 (2 ^ n))
      (by
        intro j' _ hj'
        rw [count_pair, if_neg (fun he => nf1_ne_nf2 hR1 k j' k j he),
          if_neg (fun he => hj' (nf2_inj he).2)])]
    rw [count_pair, if_neg (fun he => nf1_ne_nf2 hR1 k j k j he), if_pos rfl]
  unfold modelConstrs
  rw [List.count_append, List.count_append, List.count_append, hnf, hfin, hand, hfan]

lemma count_a1 (truth : List Nat) (marks : List Int) (n i k j : Nat)
    (hlen : truth.length = 2 ^ n)
    (hk1 : 2 ≤ k) (hk2 : k ≤ marks.length)
    (hj1 : 1 ≤ j) (hj2 : j ≤ 2 ^ n)
    (hi1 : 1 ≤ i) (hi2 : i ≤ k - 1) :
    (modelConstrs truth marks).count (andConstr1 i k j) = 1 := by
  have hn : numInputs truth = n := numInputs_two_pow truth n hlen
  have hnf : (nonFinalConstrs truth marks).count (andConstr1 i k j) = 0 := by
    rw [List.count_eq_zero]
    intro hmem
    exact nonFinal_rhsTerms_ne_nil hmem rfl
  have hfin : (finalConstrs truth marks).count (andConstr1 i k j) = 0 := by
    rw [List.count_eq_zero]
    intro hmem
    obtain ⟨j', val, hc⟩ := mem_finalConstrs hmem
    have hs := (finalRow_shape truth marks j' val).2.1
    rw [← hc] at hs
    simp [andConstr1] at hs
  have hfan : (fanInConstrs truth marks).count (andConstr1 i k j) = 0 := by
    rw [List.count_eq_zero]
    intro hmem
    obtain ⟨k', hc⟩ := mem_fanInConstrs hmem
    have hsh := (fanIn_shape truth marks k').2.2
    rw [← hc] at hsh
    have h3 := hsh ((-1 : Int), Var.r i k j) (by simp [andConstr1])
    norm_num at h3
  have hand : (andLinConstrs truth marks).count (andConstr1 i k j) = 1 := by
    unfold andLinConstrs
    rw [hn]
    rw [count_flatMap_delta _ _ _ k (by rw [List.mem_range'_1]; omega)
      (List.nodup_range' 2 (marks.length - 1))
      (by
        intro k' _ hk'
        apply count_flatMap_zero
        intro j' _
        apply count_flatMap_zero
        intro i' _
        rw [count_pair, if_neg (fun he => hk' (a1_inj he).2.1),
          if_neg (fun he => a1_ne_a2 i k j i' k' j' he.symm)])]
    rw [count_flatMap_delta _ _ _ j (by rw [List.mem_range'_1]; omega)
      (List.nodup_range' 1 (2 ^ n))
      (by
        intro j' _ hj'
        apply count_flatMap_zero
        intro i' _
        rw [count_pair, if_neg (fun he => hj' (a1_inj he).2.2),
          if_neg (fun he => a1_ne_a2 i k j i' k j' he.symm)])]
    rw [count_flatMap_delta _ _ _ i (by rw [List.mem_range'_1]; omega)
      (List.nodup_range' 1 (k - 1))
      (by
        intro i' _ hi'
        rw [count_pair, if_neg (fun he => hi' (a1_inj he).1),
          if_neg (fun he => a1_ne_a2 i k j i' k j he.symm)])]
    rw [count_pair, if_pos rfl, if_neg (fun he => a1_ne_a2 i k j i k j he.symm)]
  unfold modelConstrs
  rw [List.count_append, List.count_append, List.count_append, hnf, hfin, hand, hfan]

lemma count_a2 (truth : List Nat) (marks : List Int) (n i k j : Nat)
    (hlen : truth.length = 2 ^ n)
    (hk1 : 2 ≤ k) (hk2 : k ≤ marks.length)
    (hj1 : 1 ≤ j) (hj2 : j ≤ 2 ^ n)
    (hi1 : 1 ≤ i) (hi2 : i ≤ k - 1) :
    (modelConstrs truth marks).count (andConstr2 i k j) = 1 := by
  have hn : numInputs truth = n := numInputs_two_pow truth n hlen
  have hnf : (nonFinalConstrs truth marks).count (andConstr2 i k j) = 0 := by
    rw [List.count_eq_zero]
    intro hmem
    exact nonFinal_rhsTerms_ne_nil hmem rfl
  have hfin : (finalConstrs truth marks).count (andConstr2 i k j) = 0 := by
    rw [List.count_eq_zero]
    intro hmem
    obtain ⟨j', val, hc⟩ := mem_finalConstrs hmem
    have hsh := (finalRow_shape truth marks j' val).2.2
    rw [← hc] at hsh
    have h3 := hsh ((1 : Int), Var.p i j) (by simp [andConstr2])
    simp [Var.isP] at h3
  have hfan : (fanInConstrs truth marks).count (andConstr2 i k j) = 0 := by
    rw [List.count_eq_zero]
    intro hmem
    obtain ⟨k', hc⟩ := mem_fanInConstrs hmem
    have hs := (fanIn_shape truth marks k').2.1
    rw [← hc] at hs
    simp [andConstr2] at hs
  have hand : (andLinConstrs truth marks).count (andConstr2 i k j) = 1 := by
    unfold andLinConstrs
    rw [hn]
    rw [count_flatMap_delta _ _ _ k (by rw [List.mem_range'_1]; omega)
      (List.nodup_range' 2 (marks.length - 1))
      (by
        intro k' _ hk'
        apply count_flatMap_zero
        intro j' _
        apply count_flatMap_zero
        intro i' _
        rw [count_pair, if_neg (fun he => a1_ne_a2 i' k' j' i k j he),
          if_neg (fun he => hk' (a2_inj he).2.1)])]
    rw [count_flatMap_delta _ _ _ j (by rw [List.mem_range'_1]; omega)
      (List.nodup_range' 1 (2 ^ n))
      (by
        intro j' _ hj'
        apply count_flatMap_zero
        intro i' _
        rw [count_pair, if_neg (fun he => a1_ne_a2 i' k j' i k j he),
          if_neg (fun he => hj' (a2_inj he).2.2)])]
    rw [count_flatMap_delta _ _ _ i (by rw [List.mem_range'_1]; omega)
      (List.nodup_range' 1 (k - 1))
      (by
        intro i' _ hi'
        rw [count_pair, if_neg (fun he => a1_ne_a2 i' k j i k j he),
          if_neg (fun he => hi' (a2_inj he).1)])]
    rw [count_pair, if_neg (fun he => a1_ne_a2 i k j i k j he), if_pos rfl]
  unfold modelConstrs
  rw [List.count_append, List.count_append, List.count_append, hnf, hfin, hand, hfan]

end CircuitOpt

namespace CircuitOpt

/-! ### Semantic reading of the emitted constraints -/

lemma evalTerms_single (σ : Var → Int) (a : Int) (v : Var) :
    evalTerms σ [(a, v)] = a * σ v := by
  simp [evalTerms]

lemma nf1_holds_iff (truth : List Nat) (marks : List Int) (k j : Nat) (σ : Var → Int) :
    constrHolds σ (nfConstr1 truth marks k j)
      ↔ marks.getD (k - 1) 0 - bigA truth marks
          + bigA truth marks * σ (Var.p k j) ≤ -inSum σ truth k j := by
  simp only [constrHolds, nfConstr1, inSum]
  rw [evalTerms_append, evalTerms_neg_pairs, evalTerms_negone_pairs, evalTerms_single,
    ← neg_add]

lemma nf2_holds_iff (truth : List Nat) (marks : List Int) (k j : Nat) (σ : Var → Int) :
    constrHolds σ (nfConstr2 truth marks k j)
      ↔ 1 - marks.getD (k - 1) 0
          + (-bigA truth marks) * σ (Var.p k j) ≤ inSum σ truth k j := by
  simp only [constrHolds, nfConstr2, inSum]
  rw [evalTerms_append, evalTerms_map_pair, evalTerms_one_pairs, evalTerms_single]

lemma inSum_bounds (truth : List Nat) (k j : Nat) (σ : Var → Int) (hσ : IsBinary σ) :
    0 ≤ inSum σ truth k j
    ∧ inSum σ truth k j ≤ (numInputs truth : Int) + ((k - 1 : Nat) : Int) := by
  simp only [inSum]
  have hu := sum01_bounds ((List.range' 1 (numInputs truth)).map
      (fun el => (tableEntry (numInputs truth) (j - 1) (el - 1) : Int) * σ (Var.u el k)))
    (by
      intro x hx
      obtain ⟨el, _, rfl⟩ := List.mem_map.mp hx
      rcases tableEntry01 (numInputs truth) (j - 1) (el - 1) with h | h <;>
        rcases hσ (Var.u el k) with h' | h' <;> rw [h, h'] <;> norm_num)
  have hr := sum01_bounds ((List.range' 1 (k - 1)).map (fun i => σ (Var.r i k j)))
    (by
      intro x hx
      obtain ⟨i, _, rfl⟩ := List.mem_map.mp hx
      exact hσ (Var.r i k j))
  simp only [List.length_map, List.length_range'] at hu hr
  omega

lemma nf_pair_forces (A g S P : Int)
    (hg : g = 0 ∨ g = -1) (hP : P = 0 ∨ P = 1)
    (hS0 : 0 ≤ S) (hSA : S + 2 ≤ A) :
    ((g - A + A * P ≤ -S) ∧ (1 - g + (-A) * P ≤ S)) ↔ P = gateOutput g S := by
  unfold gateOutput
  rcases hg with rfl | rfl <;> rcases hP with rfl | rfl <;>
    simp only [mul_zero, mul_one] <;> split_ifs <;> omega

lemma nf_pair_semantics (truth : List Nat) (marks : List Int) (n k j : Nat)
    (hlen : truth.length = 2 ^ n)
    (hmk : ∀ g ∈ marks, g = 0 ∨ g = -1)
    (hk1 : 1 ≤ k) (hk2 : k ≤ marks.length - 1)
    (σ : Var → Int) (hσ : IsBinary σ) :
    (constrHolds σ (nfConstr1 truth marks k j) ∧ constrHolds σ (nfConstr2 truth marks k j))
      ↔ σ (Var.p k j) = gateOutput (marks.getD (k - 1) 0) (inSum σ truth k j) := by
  have hR : 2 ≤ marks.length := by omega
  have hg : marks.getD (k - 1) 0 = 0 ∨ marks.getD (k - 1) 0 = -1 :=
    hmk _ (getD_mem_of_lt marks (k - 1) 0 (by omega))
  have hP := hσ (Var.p k j)
  have hS := inSum_bounds truth k j σ hσ
  have hn : numInputs truth = n := numInputs_two_pow truth n hlen
  have hSA : inSum σ truth k j + 2 ≤ bigA truth marks := by
    have h2 := hS.2
    unfold bigA
    omega
  rw [nf1_holds_iff, nf2_holds_iff]
  exact nf_pair_forces (bigA truth marks) _ _ _ hg hP hS.1 hSA

lemma and_pair_semantics (i k j : Nat) (σ : Var → Int) (hσ : IsBinary σ) :
    (constrHolds σ (andConstr1 i k j) ∧ constrHolds σ (andConstr2 i k j))
      ↔ σ (Var.r i k j)
          = if σ (Var.p i j) = 1 ∧ σ (Var.v i k) = 1 then 1 else 0 := by
  have hp := hσ (Var.p i j)
  have hv := hσ (Var.v i k)
  have hr := hσ (Var.r i k j)
  simp only [constrHolds, andConstr1, andConstr2, evalTerms, List.map_cons, List.map_nil,
    List.sum_cons, List.sum_nil]
  rcases hp with hp | hp <;> rcases hv with hv | hv <;> rcases hr with hr | hr <;>
    rw [hp, hv, hr] <;> norm_num

lemma fanIn_holds_iff (truth : List Nat) (marks : List Int) (k : Nat) (σ : Var → Int) :
    constrHolds σ (fanInConstr truth marks k)
      ↔ inDeg σ (numInputs truth) k ≤ 1 - marks.getD (k - 1) 0 := by
  simp only [constrHolds, fanInConstr, inDeg]
  rw [evalTerms_append, evalTerms_one_pairs, evalTerms_one_pairs]
  simp [evalTerms]

end CircuitOpt

namespace CircuitOpt

/-- C2.  For every valid truth string (2^n digits) and gate string, and every
non-final gate k in 1..R-1 and row j in 1..2^n, the model built by
make_circuit_lp contains exactly one copy of each inequality of the big-M
pair for (k, j) — the pair over the weighted sum of table[j][el]*u.el.k and
r.i.k.j against gate k's marker, relaxed by A*(1-p.k.j) and A*p.k.j with
A = n + R as recorded in nfConstr1 and nfConstr2 — and in every 0/1
assignment the pair holds exactly when p.k.j equals the gate's logical
output on its weighted input sum. -/
theorem C2_nonfinal_bigM (truth gates : String) (n k j : Nat)
    (hdig : ∀ ch ∈ truth.toList, ch.isDigit)
    (hlen : truth.length = 2 ^ n)
    (hk1 : 1 ≤ k) (hk2 : k ≤ (parseGates gates).length - 1)
    (hj1 : 1 ≤ j) (hj2 : j ≤ 2 ^ n) :
    make_circuit_lp truth gates
      = Except.ok (modelConstrs (truthBits truth) (parseGates gates))
    ∧ (modelConstrs (truthBits truth) (parseGates gates)).count
        (nfConstr1 (truthBits truth) (parseGates gates) k j) = 1
    ∧ (modelConstrs (truthBits truth) (parseGates gates)).count
        (nfConstr2 (truthBits truth) (parseGates gates) k j) = 1
    ∧ ∀ σ : Var → Int, IsBinary σ →
        ((constrHolds σ (nfConstr1 (truthBits truth) (parseGates gates) k j)
            ∧ constrHolds σ (nfConstr2 (truthBits truth) (parseGates gates) k j))
          ↔ σ (Var.p k j)
              = gateOutput ((parseGates gates).getD (k - 1) 0)
                  (inSum σ (truthBits truth) k j)) := by
  have hlen' : (truthBits truth).length = 2 ^ n := by
    rw [truthBits_length]
    exact hlen
  exact ⟨make_circuit_lp_eq truth gates n hdig hlen,
    count_nf1 _ _ n k j hlen' hk1 hk2 hj1 hj2,
    count_nf2 _ _ n k j hlen' hk1 hk2 hj1 hj2,
    fun σ hσ => nf_pair_semantics _ _ n k j hlen' (parseGates_mem gates) hk1 hk2 σ hσ⟩

/-- C2, witness at truth 01, gates NOT NAND, gate k = 1, row j = 1. -/
theorem C2_witness :
    ((∀ ch ∈ "01".toList, ch.isDigit) ∧ "01".length = 2 ^ 1
      ∧ 1 ≤ (parseGates "NOT NAND").length - 1 ∧ 1 ≤ 2 ^ 1)
    ∧ (make_circuit_lp "01" "NOT NAND"
        = Except.ok (modelConstrs (truthBits "01") (parseGates "NOT NAND"))
      ∧ (modelConstrs (truthBits "01") (parseGates "NOT NAND")).count
          (nfConstr1 (truthBits "01") (parseGates "NOT NAND") 1 1) = 1
      ∧ (modelConstrs (truthBits "01") (parseGates "NOT NAND")).count
          (nfConstr2 (truthBits "01") (parseGates "NOT NAND") 1 1) = 1
      ∧ ∀ σ : Var → Int, IsBinary σ →
          ((constrHolds σ (nfConstr1 (truthBits "01") (parseGates "NOT NAND") 1 1)
              ∧ constrHolds σ (nfConstr2 (truthBits "01") (parseGates "NOT NAND") 1 1))
            ↔ σ (Var.p 1 1)
                = gateOutput ((parseGates "NOT NAND").getD (1 - 1) 0)
                    (inSum σ (truthBits "01") 1 1))) :=
  ⟨⟨by decide, by decide, by decide, by decide⟩,
   C2_nonfinal_bigM "01" "NOT NAND" 1 1 1 (by decide) (by decide) (by decide) (by decide)
     (by decide) (by decide)⟩

/-- C3.  For every valid truth and gate string, every k in 2..R, row j in
1..2^n and i in 1..k-1, the model contains exactly one copy of each of the
two AND-linearization inequalities p.i.j + v.i.k - r.i.k.j at most 1 and
p.i.j + v.i.k - 2*r.i.k.j at least 0, and in every 0/1 assignment the two
together force r.i.k.j = 1 exactly when p.i.j = 1 and v.i.k = 1, and
r.i.k.j = 0 otherwise. -/
theorem C3_and_linearization (truth gates : String) (n i k j : Nat)
    (hdig : ∀ ch ∈ truth.toList, ch.isDigit)
    (hlen : truth.length = 2 ^ n)
    (hk1 : 2 ≤ k) (hk2 : k ≤ (parseGates gates).length)
    (hj1 : 1 ≤ j) (hj2 : j ≤ 2 ^ n)
    (hi1 : 1 ≤ i) (hi2 : i ≤ k - 1) :
    make_circuit_lp truth gates
      = Except.ok (modelConstrs (truthBits truth) (parseGates gates))
    ∧ (modelConstrs (truthBits truth) (parseGates gates)).count (andConstr1 i k j) = 1
    ∧ (modelConstrs (truthBits truth) (parseGates gates)).count (andConstr2 i k j) = 1
    ∧ ∀ σ : Var → Int, IsBinary σ →
        ((constrHolds σ (andConstr1 i k j) ∧ constrHolds σ (andConstr2 i k j))
          ↔ σ (Var.r i k j)
              = if σ (Var.p i j) = 1 ∧ σ (Var.v i k) = 1 then 1 else 0) := by
  have hlen' : (truthBits truth).length = 2 ^ n := by
    rw [truthBits_length]
    exact hlen
  exact ⟨make_circuit_lp_eq truth gates n hdig hlen,
    count_a1 _ _ n i k j hlen' hk1 hk2 hj1 hj2 hi1 hi2,
    count_a2 _ _ n i k j hlen' hk1 hk2 hj1 hj2 hi1 hi2,
    fun σ hσ => and_pair_semantics i k j σ hσ⟩

/-- C3, witness at truth 01, gates NOT NAND, k = 2, i = 1, row j = 1. -/
theorem C3_witness :
    ((∀ ch ∈ "01".toList, ch.isDigit) ∧ "01".length = 2 ^ 1
      ∧ 2 ≤ (parseGates "NOT NAND").length ∧ 1 ≤ 2 - 1)
    ∧ (make_circuit_lp "01" "NOT NAND"
        = Except.ok (modelConstrs (truthBits "01") (parseGates "NOT NAND"))
      ∧ (modelConstrs (truthBits "01") (parseGates "NOT NAND")).count (andConstr1 1 2 1) = 1
      ∧ (modelConstrs (truthBits "01") (parseGates "NOT NAND")).count (andConstr2 1 2 1) = 1
      ∧ ∀ σ : Var → Int, IsBinary σ →
          ((constrHolds σ (andConstr1 1 2 1) ∧ constrHolds σ (andConstr2 1 2 1))
            ↔ σ (Var.r 1 2 1)
                = if σ (Var.p 1 1) = 1 ∧ σ (Var.v 1 2) = 1 then 1 else 0)) :=
  ⟨⟨by decide, by decide, by decide, by decide⟩,
   C3_and_linearization "01" "NOT NAND" 1 1 2 1 (by decide) (by decide) (by decide)
     (by decide) (by decide) (by decide) (by decide) (by decide)⟩

/-- C4.  For every valid truth and gate string and every gate k in 1..R, the
model contains the fan-in constraint of gate k — the sum of u.el.k and
v.i.k indicators at most 1 - marker(k) — and under any assignment that
constraint says exactly that gate k's in-degree is at most 1 - marker(k):
at most 1 for a NOT gate (marker 0) and at most 2 for a NAND gate
(marker -1). -/
theorem C4_fan_in_cap (truth gates : String) (n k : Nat)
    (hdig : ∀ ch ∈ truth.toList, ch.isDigit)
    (hlen : truth.length = 2 ^ n)
    (hk1 : 1 ≤ k) (hk2 : k ≤ (parseGates gates).length) :
    make_circuit_lp truth gates
      = Except.ok (modelConstrs (truthBits truth) (parseGates gates))
    ∧ fanInConstr (truthBits truth) (parseGates gates) k
        ∈ modelConstrs (truthBits truth) (parseGates gates)
    ∧ ∀ σ : Var → Int,
        (constrHolds σ (fanInConstr (truthBits truth) (parseGates gates) k)
          ↔ inDeg σ n k ≤ 1 - (parseGates gates).getD (k - 1) 0)
        ∧ ((parseGates gates).getD (k - 1) 0 = 0 →
            constrHolds σ (fanInConstr (truthBits truth) (parseGates gates) k) →
            inDeg σ n k ≤ 1)
        ∧ ((parseGates gates).getD (k - 1) 0 = -1 →
            constrHolds σ (fanInConstr (truthBits truth) (parseGates gates) k) →
            inDeg σ n k ≤ 2) := by
  have hlen' : (truthBits truth).length = 2 ^ n := by
    rw [truthBits_length]
    exact hlen
  have hn : numInputs (truthBits truth) = n := numInputs_two_pow _ n hlen'
  have hiff : ∀ σ : Var → Int,
      constrHolds σ (fanInConstr (truthBits truth) (parseGates gates) k)
        ↔ inDeg σ n k ≤ 1 - (parseGates gates).getD (k - 1) 0 := by
    intro σ
    have h := fanIn_holds_iff (truthBits truth) (parseGates gates) k σ
    rw [hn] at h
    exact h
  refine ⟨make_circuit_lp_eq truth gates n hdig hlen, ?_, ?_⟩
  · have hmem : fanInConstr (truthBits truth) (parseGates gates) k
        ∈ fanInConstrs (truthBits truth) (parseGates gates) := by
      simp only [fanInConstrs, List.mem_map]
      exact ⟨k, by rw [List.mem_range'_1]; omega, rfl⟩
    unfold modelConstrs
    exact List.mem_append_right _ hmem
  · intro σ
    refine ⟨hiff σ, ?_, ?_⟩
    · intro hg hch
      have h2 := (hiff σ).mp hch
      rw [hg] at h2
      omega
    · intro hg hch
      have h2 := (hiff σ).mp hch
      rw [hg] at h2
      omega

/-- C4, witness at truth 01, gates NOT, gate k = 1. -/
theorem C4_witness :
    ((∀ ch ∈ "01".toList, ch.isDigit) ∧ "01".length = 2 ^ 1
      ∧ 1 ≤ (parseGates "NOT").length)
    ∧ (make_circuit_lp "01" "NOT"
        = Except.ok (modelConstrs (truthBits "01") (parseGates "NOT"))
      ∧ fanInConstr (truthBits "01") (parseGates "NOT") 1
          ∈ modelConstrs (truthBits "01") (parseGates "NOT")
      ∧ ∀ σ : Var → Int,
          (constrHolds σ (fanInConstr (truthBits "01") (parseGates "NOT") 1)
            ↔ inDeg σ 1 1 ≤ 1 - (parseGates "NOT").getD (1 - 1) 0)
          ∧ ((parseGates "NOT").getD (1 - 1) 0 = 0 →
              constrHolds σ (fanInConstr (truthBits "01") (parseGates "NOT") 1) →
              inDeg σ 1 1 ≤ 1)
          ∧ ((parseGates "NOT").getD (1 - 1) 0 = -1 →
              constrHolds σ (fanInConstr (truthBits "01") (parseGates "NOT") 1) →
              inDeg σ 1 1 ≤ 2)) :=
  ⟨⟨by decide, by decide, by decide⟩,
   C4_fan_in_cap "01" "NOT" 1 1 (by decide) (by decide) (by decide) (by decide)⟩

end CircuitOpt
